import Mathlib

/-
  Verification of the ozzo-di dependency-injection container
  (src/container.go) against its natural-language specification.

  The Go code is shallowly embedded:
  * `Ty` models `reflect.Type` restricted to the kinds the code
    dispatches on (scalar, struct, interface, pointer, slice, map, chan).
    Struct field metadata (name, `inject` tag, settability/exportedness)
    lives in the type, as it does in Go.
  * `Value` models `reflect.Value`; `Value.invalid` is the zero
    `reflect.Value` produced e.g. by `Elem()` on a nil pointer.
    Addressability (`CanAddr`) is tracked as a separate `Bool` alongside
    each value, mirroring how `reflect` values carry an addressable flag.
  * A provider (`func(Container) reflect.Value`) is modelled by the
    value (and addressability flag) it returns on each invocation; the
    resolution functions additionally count how many provider
    invocations they perform, so that "the factory is invoked exactly
    once" is a statement about the returned count.
  * `build`, `injectV`/`injectFs` embed `container.build` and
    `container.inject`; Go's in-place map mutation (the shared-provider
    cache transition) is modelled by returning the evolved container.
    Recursion is fuel-bounded because the Go code can genuinely diverge
    on cyclic alias chains (spec section 5).
-/

namespace OzzoDi

/- Type identifiers, modelling `reflect.Type` as used by container.go:
the kinds its `switch t.Kind()` dispatches on, plus the struct field
metadata (`StructField.Name`, the `inject` tag value, and whether the
field is settable, i.e. exported) and method sets used by
`ConvertibleTo`. -/
mutual
inductive Ty where
  | scalar (name : String) : Ty
  | stru (name : String) (methods : List String) (fields : Fields) : Ty
  | iface (name : String) (methods : List String) : Ty
  | ptr (elem : Ty) : Ty
  | slice (elem : Ty) : Ty
  | mapT (key elem : Ty) : Ty
  | chan (elem : Ty) : Ty

inductive Fields where
  | nil : Fields
  | cons (name tag : String) (settable : Bool) (ty : Ty) (rest : Fields) : Fields
end

deriving instance DecidableEq for Ty
deriving instance DecidableEq for Fields

/- Runtime values, modelling `reflect.Value`. `invalid` is the zero
`reflect.Value` (kind `Invalid`), which arises from `Elem()` on a nil
pointer. A pointer value is either nil or carries the pointed-to value. -/
mutual
inductive Value where
  | invalid : Value
  | scalarV (tyName : String) (n : Nat) : Value
  | struV (name : String) (methods : List String) (fields : FieldVs) : Value
  | ptrNil (elem : Ty) : Value
  | ptrV (elem : Ty) (target : Value) : Value
  | sliceV (elem : Ty) (isNil : Bool) : Value
  | mapV (key elem : Ty) (isNil : Bool) : Value
  | chanV (elem : Ty) (isNil : Bool) : Value
  | ifaceNil (name : String) (methods : List String) : Value

inductive FieldVs where
  | nil : FieldVs
  | cons (name tag : String) (settable : Bool) (ty : Ty) (v : Value) (rest : FieldVs) : FieldVs
end

deriving instance DecidableEq for Value
deriving instance DecidableEq for FieldVs

/- The type of a value (`reflect.Value.Type()`); the invalid value has
no type, a fresh scalar name stands in for it (never relied upon: the
theorems that speak about types also assert the value is not invalid). -/
mutual
def typeOfV : Value → Ty
  | .invalid => .scalar "<invalid>"
  | .scalarV n _ => .scalar n
  | .struV n ms fs => .stru n ms (fieldVTys fs)
  | .ptrNil e => .ptr e
  | .ptrV e _ => .ptr e
  | .sliceV e _ => .slice e
  | .mapV k e _ => .mapT k e
  | .chanV e _ => .chan e
  | .ifaceNil n ms => .iface n ms

def fieldVTys : FieldVs → Fields
  | .nil => .nil
  | .cons n tag s ty _ rest => .cons n tag s ty (fieldVTys rest)
end

/- The zero value of a type (`reflect.New(t).Elem()`): zero scalars,
zero-filled structs, nil pointers/interfaces/slices/maps/channels. -/
mutual
def zeroValue : Ty → Value
  | .scalar n => .scalarV n 0
  | .stru n ms fs => .struV n ms (zeroFields fs)
  | .iface n ms => .ifaceNil n ms
  | .ptr e => .ptrNil e
  | .slice e => .sliceV e true
  | .mapT k e => .mapV k e true
  | .chan e => .chanV e true

def zeroFields : Fields → FieldVs
  | .nil => .nil
  | .cons n tag s ty rest => .cons n tag s ty (zeroValue ty) (zeroFields rest)
end

/-- Method set of a type, for the implements-an-interface direction of
`reflect.Type.ConvertibleTo` (a pointer type has its pointee struct's
method set; in the Go tests the methods are declared on the pointer
receiver, so they belong to the pointer type). -/
def methodsOf : Ty → List String
  | .stru _ ms _ => ms
  | .ptr (.stru _ ms _) => ms
  | .iface _ ms => ms
  | _ => []

/-- `reflect.Type.ConvertibleTo`, restricted to the cases exercised by
container.go: a type is convertible to itself, and to an interface type
whose required methods it all implements. -/
def convertibleTo (src dst : Ty) : Bool :=
  src = dst ||
    (match dst with
     | .iface _ ms => ms.all (fun m => (methodsOf src).contains m)
     | _ => false)

/-- A binding stored in `container.values`. In Go, the map value is an
`interface{}` holding either a `reflect.Value` (instance), a
`reflect.Type` (alias), or a `providerBinding`. A provider is modelled
by the value/addressability it returns on each invocation. -/
inductive Binding where
  | inst (v : Value) (canAddr : Bool) : Binding
  | aliasB (target : Ty) : Binding
  | prov (retV : Value) (retAddr : Bool) (shared : Bool) : Binding
deriving DecidableEq

/-- A container: `type container struct { parent Container; values map[reflect.Type]interface{} }`.
The map is an association list with unique keys maintained by `insertB`;
the `parent Container` field is either nil (`root`) or set (`child`). -/
inductive Ctr where
  | root (values : List (Ty × Binding)) : Ctr
  | child (values : List (Ty × Binding)) (parentC : Ctr) : Ctr
deriving DecidableEq

def Ctr.parent : Ctr → Option Ctr
  | .root _ => none
  | .child _ p => some p

def Ctr.values : Ctr → List (Ty × Binding)
  | .root vs => vs
  | .child vs _ => vs

def Ctr.withParent : Ctr → Option Ctr → Ctr
  | c, none => .root c.values
  | c, some p => .child c.values p

def Ctr.withValues : Ctr → List (Ty × Binding) → Ctr
  | .root _, vs => .root vs
  | .child _ p, vs => .child vs p

/-- `NewContainer()`. -/
def newContainer : Ctr := .root []

/-- Go map lookup `c.values[t]`. -/
def lookupB : List (Ty × Binding) → Ty → Option Binding
  | [], _ => none
  | (k, b) :: rest, t => if k = t then some b else lookupB rest t

/-- Go map store `c.values[t] = b` (replaces an existing entry, else adds). -/
def insertB : List (Ty × Binding) → Ty → Binding → List (Ty × Binding)
  | [], t, b => [(t, b)]
  | (k, b0) :: rest, t, b =>
      if k = t then (t, b) :: rest else (k, b0) :: insertB rest t b

/-- Go map delete `delete(c.values, t)`. -/
def removeB : List (Ty × Binding) → Ty → List (Ty × Binding)
  | [], _ => []
  | (k, b0) :: rest, t =>
      if k = t then rest else (k, b0) :: removeB rest t

/-- `container.HasRegistered`. -/
def hasRegistered (c : Ctr) (t : Ty) : Bool :=
  (lookupB c.values t).isSome

/-- `container.Unregister`. -/
def unregister (c : Ctr) (t : Ty) : Ctr :=
  c.withValues (removeB c.values t)

/-- `container.SetParentContainer`. -/
def setParentContainer (c : Ctr) (p : Option Ctr) : Ctr :=
  c.withParent p

/-- `container.Register`: `c.values[reflect.TypeOf(val)] = reflect.ValueOf(val)`.
A value obtained by `reflect.ValueOf` is not addressable. -/
def register (c : Ctr) (v : Value) : Ctr :=
  c.withValues (insertB c.values (typeOfV v) (.inst v false))

/-- `container.RegisterProvider`: `c.values[t] = providerBinding{p, shared}`. -/
def registerProvider (c : Ctr) (retV : Value) (retAddr : Bool) (t : Ty) (shared : Bool) : Ctr :=
  c.withValues (insertB c.values t (.prov retV retAddr shared))

/-- The argument of `RegisterAs`: either a `reflect.Type` or an ordinary value. -/
inductive RegArg where
  | ofType (t : Ty)
  | ofVal (v : Value)

/-- `container.RegisterAs`. The `panic` on an inconvertible source is
modelled as `Except.error`; on success the new container is returned. -/
def registerAs (c : Ctr) (arg : RegArg) (t : Ty) : Except String Ctr :=
  match arg with
  | .ofType vt =>
      if convertibleTo vt t then
        .ok (c.withValues (insertB c.values t (.aliasB vt)))
      else
        .error "cannot be converted"
  | .ofVal v =>
      let vt := typeOfV v
      if convertibleTo vt t then
        .ok (c.withValues (insertB c.values t (.inst v false)))
      else
        .error "cannot be converted"

/-- `reflect.Value.Elem()` on a pointer-typed value: dereferencing a
non-nil pointer yields the (addressable) pointee, dereferencing a nil
pointer yields the invalid (zero) `reflect.Value`. -/
def elemOf : Value × Bool → Value × Bool
  | (.ptrV _ tgt, _) => (tgt, true)
  | _ => (.invalid, false)

/-- Result of one `container.build` call: the built value with its
addressability, the evolved container (the shared-provider cache
transition mutates the binding map in place), and the number of
provider invocations performed. -/
structure BRes where
  v : Value
  ca : Bool
  c : Ctr
  n : Nat
deriving DecidableEq

/- `container.build` and `container.inject` (container.go lines 204-270),
fuel-bounded (`none` = fuel exhausted; the Go code can diverge on cyclic
alias chains).  `build fuel c t` follows the source order exactly:
(1) a binding in this container (alias / provider, with the shared
cache-in-place transition / instance); (2) delegate the whole resolution
to the parent; (3) otherwise the structural fallback, split off into
`buildFallback` (the "no mapping found, no parent" tail of the Go
function, lines 227-250): first the pointer-version fallback
`build(PtrTo(t)).Elem()` when the pointer type is bound here, then
structural defaults per kind, where a struct is freshly zeroed and
field-injected, and a pointer is synthesized from the element only when
the built element is addressable.

`injectV` embeds `inject`: dereference pointers (a nil pointer derefs to
the invalid value, whose kind is not Struct, so it is a no-op), do
nothing on non-structs, and for each field that is settable and carries
a non-empty `inject` tag, set it to `build` of its type.  A value
reached through a pointer is addressable, hence the `true` flag after a
dereference; `f.CanSet()` requires the struct to be addressable and the
field to be exported (`Fields.settable`). -/
mutual

def build : Nat → Ctr → Ty → Option BRes
  | 0, _, _ => none
  | fuel+1, c, t =>
    match lookupB c.values t with
    | some (.aliasB t') => build fuel c t'
    | some (.prov rv ra shared) =>
        if shared then
          some ⟨rv, ra, c.withValues (insertB c.values t (.inst rv ra)), 1⟩
        else
          some ⟨rv, ra, c, 1⟩
    | some (.inst v ca) => some ⟨v, ca, c, 0⟩
    | none =>
      match c.parent with
      | some p =>
          match build fuel p t with
          | none => none
          | some r => some ⟨r.v, r.ca, c.withParent (some r.c), r.n⟩
      | none => buildFallback fuel c t

def buildFallback : Nat → Ctr → Ty → Option BRes
  | 0, _, _ => none
  | fuel+1, c, t =>
      if (lookupB c.values (.ptr t)).isSome then
        match build fuel c (.ptr t) with
        | none => none
        | some r =>
            some ⟨(elemOf (r.v, r.ca)).1, (elemOf (r.v, r.ca)).2, r.c, r.n⟩
      else
        match t with
        | .stru _ _ _ =>
            match injectV fuel c (zeroValue t) true with
            | none => none
            | some (v, c', k) => some ⟨v, true, c', k⟩
        | .slice e => some ⟨.sliceV e false, false, c, 0⟩
        | .mapT k e => some ⟨.mapV k e false, false, c, 0⟩
        | .chan e => some ⟨.chanV e false, false, c, 0⟩
        | .ptr e =>
            match build fuel c e with
            | none => none
            | some r =>
                if r.ca then some ⟨.ptrV e r.v, false, r.c, r.n⟩
                else some ⟨zeroValue (.ptr e), true, r.c, r.n⟩
        | _ => some ⟨zeroValue t, true, c, 0⟩

def injectV : Nat → Ctr → Value → Bool → Option (Value × Ctr × Nat)
  | 0, _, _, _ => none
  | fuel+1, c, .ptrV e tgt, _ =>
      match injectV fuel c tgt true with
      | none => none
      | some (tgt', c', k) => some (.ptrV e tgt', c', k)
  | fuel+1, c, .struV n ms fs, ca =>
      match injectFs fuel c fs ca with
      | none => none
      | some (fs', c', k) => some (.struV n ms fs', c', k)
  | _+1, c, v, _ => some (v, c, 0)

def injectFs : Nat → Ctr → FieldVs → Bool → Option (FieldVs × Ctr × Nat)
  | 0, _, _, _ => none
  | _+1, c, .nil, _ => some (.nil, c, 0)
  | fuel+1, c, .cons n tag s ty v rest, ca =>
      if ca && s && !(tag == "") then
        match build fuel c ty with
        | none => none
        | some r =>
          match injectFs fuel r.c rest ca with
          | none => none
          | some (rest', c', k) => some (.cons n tag s ty r.v rest', c', r.n + k)
      else
        match injectFs fuel c rest ca with
        | none => none
        | some (rest', c', k) => some (.cons n tag s ty v rest', c', k)

end

/-- `container.Make`: `c.build(t).Interface()`. Calling `Interface()` on
the invalid (zero) `reflect.Value` panics, modelled as `none` when the
fuel sufficed but the built value is invalid. -/
def makeV (fuel : Nat) (c : Ctr) (t : Ty) : Option (Value × Ctr × Nat) :=
  match build fuel c t with
  | none => none
  | some r => if r.v = .invalid then none else some (r.v, r.c, r.n)

/-- `container.Inject`: `c.inject(reflect.ValueOf(val))`; a value freshly
obtained via `reflect.ValueOf` is not addressable. -/
def injectTop (fuel : Nat) (c : Ctr) (v : Value) : Option (Value × Ctr × Nat) :=
  injectV fuel c v false

/-- Resolve each parameter type positionally, left to right, threading
the container (the loop over `t.In(i)` in `container.Call`). -/
def buildArgs : Nat → Ctr → List Ty → Option (List Value × Ctr × Nat)
  | _, c, [] => some ([], c, 0)
  | fuel, c, t :: ts =>
      match build fuel c t with
      | none => none
      | some r =>
          match buildArgs fuel r.c ts with
          | none => none
          | some (vs, c', k) => some (r.v :: vs, c', r.n + k)

/-- The argument of `container.Call`: either a function value (its
parameter types plus its behavior on a list of arguments) or a
non-function value, on which `reflect.Type.NumIn()` panics. -/
inductive Callable where
  | fn (params : List Ty) (impl : List Value → List Value) : Callable
  | notFn (v : Value) : Callable

/-- `container.Call`: `none` = fuel exhausted, `some (.error ..)` = the
panic on a non-function argument, `some (.ok ..)` = the result slice
together with the evolved container and provider-invocation count. -/
def call (fuel : Nat) (c : Ctr) (f : Callable) : Option (Except String (List Value × Ctr × Nat)) :=
  match f with
  | .notFn _ => some (.error "not a func")
  | .fn params impl =>
      match buildArgs fuel c params with
      | none => none
      | some (vs, c', k) => some (.ok (impl vs, c', k))

/-- Iterated resolution: `resolveN k fuel c t` performs `k` successive
`build` calls for `t`, threading the container, and sums the provider
invocation counts. -/
def resolveN : Nat → Nat → Ctr → Ty → Option (Ctr × Nat)
  | 0, _, c, _ => some (c, 0)
  | k+1, fuel, c, t =>
      match build fuel c t with
      | none => none
      | some r =>
          match resolveN k fuel r.c t with
          | none => none
          | some (c', m) => some (c', r.n + m)

/- ------------------------------------------------------------------ -/
/- Basic lemmas about the container primitives.                        -/
/- ------------------------------------------------------------------ -/

@[simp] lemma values_withValues (c : Ctr) (vs : List (Ty × Binding)) :
    (c.withValues vs).values = vs := by
  cases c <;> rfl

@[simp] lemma parent_withValues (c : Ctr) (vs : List (Ty × Binding)) :
    (c.withValues vs).parent = c.parent := by
  cases c <;> rfl

@[simp] lemma values_withParent (c : Ctr) (p : Option Ctr) :
    (c.withParent p).values = c.values := by
  cases p <;> rfl

@[simp] lemma parent_withParent (c : Ctr) (p : Option Ctr) :
    (c.withParent p).parent = p := by
  cases p <;> rfl

@[simp] lemma lookup_insert_self (vs : List (Ty × Binding)) (t : Ty) (b : Binding) :
    lookupB (insertB vs t b) t = some b := by
  induction vs with
  | nil => simp [insertB, lookupB]
  | cons hd rest ih =>
      obtain ⟨k, b0⟩ := hd
      by_cases h : k = t <;> simp [insertB, lookupB, h, ih]

lemma lookup_insert_ne (vs : List (Ty × Binding)) (t u : Ty) (b : Binding)
    (h : u ≠ t) : lookupB (insertB vs t b) u = lookupB vs u := by
  have h' : t ≠ u := fun e => h e.symm
  induction vs with
  | nil => simp [insertB, lookupB, h']
  | cons hd rest ih =>
      obtain ⟨k, b0⟩ := hd
      by_cases hk : k = t
      · subst hk
        simp [insertB, lookupB, h']
      · simp [insertB, lookupB, hk, ih]

lemma lookup_insert_isSome (vs : List (Ty × Binding)) (t u : Ty) (b : Binding)
    (h : (lookupB vs t).isSome = true) :
    (lookupB (insertB vs t b) u).isSome = (lookupB vs u).isSome := by
  by_cases hu : u = t
  · subst hu
    simp [h]
  · rw [lookup_insert_ne vs t u b hu]

/- ------------------------------------------------------------------ -/
/- C1: instance-binding fidelity.                                      -/
/- ------------------------------------------------------------------ -/

/-- C1: for every value `v`, after `Register(v)` on a container,
resolving the type of `v` returns `v` itself, directly from the
instance-binding branch: no transformation, no provider invocation, and
no change to the container. -/
theorem register_then_build_returns_value (c : Ctr) (v : Value) (fuel : Nat) :
    build (fuel+1) (register c v) (typeOfV v) =
      some ⟨v, false, register c v, 0⟩ := by
  simp [build, register]

/- ------------------------------------------------------------------ -/
/- C2: shared-provider memoization.                                    -/
/- ------------------------------------------------------------------ -/

/-- C2: after `RegisterProvider(f, t, shared := true)`, the first
resolution of `t` invokes the provider exactly once (count 1) and
replaces the binding for `t` in place by an instance binding holding
the provider's result; resolving on the evolved container returns the
identical value with zero further invocations, and two successive
resolutions invoke the provider exactly once in total. -/
theorem shared_provider_memoized (c : Ctr) (rv : Value) (ra : Bool) (t : Ty)
    (fuel fuel' : Nat) :
    ∃ c2 : Ctr,
      build (fuel+1) (registerProvider c rv ra t true) t = some ⟨rv, ra, c2, 1⟩ ∧
      lookupB c2.values t = some (.inst rv ra) ∧
      build (fuel'+1) c2 t = some ⟨rv, ra, c2, 0⟩ ∧
      resolveN 2 (fuel+1) (registerProvider c rv ra t true) t = some (c2, 1) := by
  refine ⟨(registerProvider c rv ra t true).withValues
      (insertB (registerProvider c rv ra t true).values t (.inst rv ra)), ?_, ?_, ?_, ?_⟩
  · simp [build, registerProvider]
  · simp [registerProvider]
  · simp [build, registerProvider]
  · simp [resolveN, build, registerProvider]

/- ------------------------------------------------------------------ -/
/- C3: non-shared provider.                                            -/
/- ------------------------------------------------------------------ -/

/-- C3: after `RegisterProvider(f, t, shared := false)`, one resolution
of `t` invokes the provider exactly once and leaves the container (in
particular the binding for `t`) unchanged, and `k` successive
resolutions invoke it exactly `k` times, still leaving the container
unchanged. -/
theorem unshared_provider_invoked_per_call (c : Ctr) (rv : Value) (ra : Bool)
    (t : Ty) (fuel k : Nat) :
    build (fuel+1) (registerProvider c rv ra t false) t =
      some ⟨rv, ra, registerProvider c rv ra t false, 1⟩ ∧
    resolveN k (fuel+1) (registerProvider c rv ra t false) t =
      some (registerProvider c rv ra t false, k) := by
  constructor
  · simp [build, registerProvider]
  · induction k with
    | zero => simp [resolveN]
    | succ k ih =>
        simp only [resolveN]
        simp only [build, registerProvider, values_withValues, lookup_insert_self]
        simp only [registerProvider, values_withValues] at ih
        simp [ih, Nat.add_comm]

/- ------------------------------------------------------------------ -/
/- C5: incompatible registration is rejected, nothing installed.       -/
/- ------------------------------------------------------------------ -/

/-- C5: `RegisterAs(x, Y)` with the type of `x` not convertible to `Y`
panics (modelled as `Except.error`) and installs no binding: the
container visible afterwards is still `c`, so `HasRegistered(Y)` is
still false. -/
theorem registerAs_incompatible_rejected (c : Ctr) (v : Value) (Y : Ty)
    (h1 : convertibleTo (typeOfV v) Y = false)
    (h2 : hasRegistered c Y = false) :
    registerAs c (.ofVal v) Y = .error "cannot be converted" ∧
    hasRegistered c Y = false := by
  refine ⟨?_, h2⟩
  simp [registerAs, h1]

theorem registerAs_incompatible_rejected_witness :
    convertibleTo (typeOfV (.scalarV "int" 0)) (.iface "Writer" ["Write"]) = false ∧
    hasRegistered newContainer (.iface "Writer" ["Write"]) = false ∧
    (registerAs newContainer (.ofVal (.scalarV "int" 0)) (.iface "Writer" ["Write"]) =
        .error "cannot be converted" ∧
      hasRegistered newContainer (.iface "Writer" ["Write"]) = false) :=
  ⟨by decide, by decide,
    registerAs_incompatible_rejected newContainer (.scalarV "int" 0)
      (.iface "Writer" ["Write"]) (by decide) (by decide)⟩

/- ------------------------------------------------------------------ -/
/- C6: hierarchical delegation to the parent.                          -/
/- ------------------------------------------------------------------ -/

/-- C6: when the child holds no binding for `t` and has a parent with an
instance binding for `t`, resolution on the child delegates the entire
resolution to the parent (the parent's own lookup decides, never the
child's bindings) and returns the parent's bound value, leaving the
child unchanged; once the parent link is removed, the same resolution
instead falls through to the structural-fallback block
(`buildFallback`, container.go lines 227-250). -/
theorem child_without_binding_delegates_to_parent (c p : Ctr) (t : Ty) (v : Value)
    (ca : Bool) (fuel : Nat)
    (hc : lookupB c.values t = none)
    (hp : c.parent = some p)
    (hpv : lookupB p.values t = some (.inst v ca)) :
    build (fuel+2) c t = some ⟨v, ca, c, 0⟩ ∧
    build (fuel+2) (setParentContainer c none) t =
      buildFallback (fuel+1) (setParentContainer c none) t := by
  constructor
  · have hcc : c.withParent (some p) = c := by
      rw [← hp]
      cases c <;> rfl
    simp [build, hc, hp, hpv, hcc]
  · simp [build, setParentContainer, hc]

theorem child_without_binding_delegates_to_parent_witness :
    lookupB (Ctr.child [] (register newContainer (.scalarV "int" 42))).values
        (.scalar "int") = none ∧
    (Ctr.child [] (register newContainer (.scalarV "int" 42))).parent =
      some (register newContainer (.scalarV "int" 42)) ∧
    lookupB (register newContainer (.scalarV "int" 42)).values (.scalar "int") =
      some (.inst (.scalarV "int" 42) false) ∧
    (build 2 (Ctr.child [] (register newContainer (.scalarV "int" 42)))
        (.scalar "int") =
      some ⟨.scalarV "int" 42, false,
        Ctr.child [] (register newContainer (.scalarV "int" 42)), 0⟩ ∧
     build 2 (setParentContainer
        (Ctr.child [] (register newContainer (.scalarV "int" 42))) none)
        (.scalar "int") =
      buildFallback 1 (setParentContainer
        (Ctr.child [] (register newContainer (.scalarV "int" 42))) none)
        (.scalar "int")) :=
  ⟨by decide, by decide, by decide,
    child_without_binding_delegates_to_parent
      (Ctr.child [] (register newContainer (.scalarV "int" 42)))
      (register newContainer (.scalarV "int" 42))
      (.scalar "int") (.scalarV "int" 42) false 0
      (by decide) (by decide) (by decide)⟩

/- ------------------------------------------------------------------ -/
/- C7: pointer/value asymmetry.                                        -/
/- ------------------------------------------------------------------ -/

/-- C7: with a pointer-to-`s` value registered (and `s` itself unbound),
resolving `s` dereferences the bound pointer and returns the pointee;
conversely with only a value of type `s` registered (instance bindings
store unaddressable `reflect.ValueOf` results), resolving `ptr s`
cannot take the stored value's address and yields a nil pointer. -/
theorem pointer_value_asymmetry (c d : Ctr) (s : Ty) (w v : Value) (cw : Bool)
    (fuel : Nat)
    (hA1 : c.parent = none)
    (hA2 : lookupB c.values s = none)
    (hA3 : lookupB c.values (.ptr s) = some (.inst (.ptrV s w) cw))
    (hB1 : d.parent = none)
    (hB2 : lookupB d.values (.ptr s) = none)
    (hB3 : lookupB d.values (.ptr (.ptr s)) = none)
    (hB4 : lookupB d.values s = some (.inst v false)) :
    build (fuel+3) c s = some ⟨w, true, c, 0⟩ ∧
    build (fuel+3) d (.ptr s) = some ⟨.ptrNil s, true, d, 0⟩ := by
  constructor
  · simp [build, buildFallback, hA1, hA2, hA3, elemOf]
  · simp [build, buildFallback, hB1, hB2, hB3, hB4, zeroValue]

theorem pointer_value_asymmetry_witness :
    (register newContainer (.ptrV (.scalar "S") (.scalarV "S" 5))).parent = none ∧
    lookupB (register newContainer (.ptrV (.scalar "S") (.scalarV "S" 5))).values
      (.scalar "S") = none ∧
    lookupB (register newContainer (.ptrV (.scalar "S") (.scalarV "S" 5))).values
      (.ptr (.scalar "S")) = some (.inst (.ptrV (.scalar "S") (.scalarV "S" 5)) false) ∧
    (register newContainer (.scalarV "S" 5)).parent = none ∧
    lookupB (register newContainer (.scalarV "S" 5)).values (.ptr (.scalar "S")) = none ∧
    lookupB (register newContainer (.scalarV "S" 5)).values
      (.ptr (.ptr (.scalar "S"))) = none ∧
    lookupB (register newContainer (.scalarV "S" 5)).values (.scalar "S") =
      some (.inst (.scalarV "S" 5) false) ∧
    (build 3 (register newContainer (.ptrV (.scalar "S") (.scalarV "S" 5)))
        (.scalar "S") =
      some ⟨.scalarV "S" 5, true, register newContainer (.ptrV (.scalar "S") (.scalarV "S" 5)), 0⟩ ∧
     build 3 (register newContainer (.scalarV "S" 5)) (.ptr (.scalar "S")) =
      some ⟨.ptrNil (.scalar "S"), true, register newContainer (.scalarV "S" 5), 0⟩) :=
  ⟨by decide, by decide, by decide, by decide, by decide, by decide, by decide,
    pointer_value_asymmetry
      (register newContainer (.ptrV (.scalar "S") (.scalarV "S" 5)))
      (register newContainer (.scalarV "S" 5))
      (.scalar "S") (.scalarV "S" 5) (.scalarV "S" 5) false 0
      (by decide) (by decide) (by decide) (by decide) (by decide) (by decide) (by decide)⟩

/- ------------------------------------------------------------------ -/
/- Provider-free containers: resolution is a pure read.                -/
/- ------------------------------------------------------------------ -/

/-- No provider binding in a binding list. -/
def noProvB : List (Ty × Binding) → Bool
  | [] => true
  | (_, .prov _ _ _) :: _ => false
  | _ :: rest => noProvB rest

/-- No provider binding anywhere in the container chain. -/
def noProv : Ctr → Bool
  | .root vs => noProvB vs
  | .child vs p => noProvB vs && noProv p

lemma noProvB_lookup {vs : List (Ty × Binding)} {t : Ty} {rv : Value}
    {ra sh : Bool} (hnp : noProvB vs = true)
    (h : lookupB vs t = some (.prov rv ra sh)) : False := by
  induction vs with
  | nil => simp [lookupB] at h
  | cons hd rest ih =>
      obtain ⟨k, b⟩ := hd
      by_cases hk : k = t
      · subst hk
        simp [lookupB] at h
        subst h
        simp [noProvB] at hnp
      · simp only [lookupB, if_neg hk] at h
        cases b with
        | prov rv' ra' sh' => simp [noProvB] at hnp
        | inst v' ca' => exact ih (by simpa [noProvB] using hnp) h
        | aliasB t' => exact ih (by simpa [noProvB] using hnp) h

lemma noProv_values {c : Ctr} (h : noProv c = true) : noProvB c.values = true := by
  cases c with
  | root vs => simpa [noProv, Ctr.values] using h
  | child vs p =>
      simp only [noProv, Bool.and_eq_true] at h
      simpa [Ctr.values] using h.1

lemma noProv_parent {c p : Ctr} (h : noProv c = true) (hp : c.parent = some p) :
    noProv p = true := by
  cases c with
  | root vs => simp [Ctr.parent] at hp
  | child vs q =>
      simp only [Ctr.parent, Option.some.injEq] at hp
      subst hp
      simp only [noProv, Bool.and_eq_true] at h
      exact h.2

lemma withParent_self {c : Ctr} {p : Ctr} (hp : c.parent = some p) :
    c.withParent (some p) = c := by
  cases c with
  | root vs => simp [Ctr.parent] at hp
  | child vs q =>
      simp only [Ctr.parent, Option.some.injEq] at hp
      subst hp
      rfl

/-- In a provider-free chain, resolution never mutates the container and
performs zero provider invocations. -/
lemma noProv_frame : ∀ fuel : Nat,
    (∀ c t r, noProv c = true → build fuel c t = some r → r.c = c ∧ r.n = 0) ∧
    (∀ c t r, noProv c = true → buildFallback fuel c t = some r → r.c = c ∧ r.n = 0) ∧
    (∀ c v ca w c' k, noProv c = true → injectV fuel c v ca = some (w, c', k) → c' = c ∧ k = 0) ∧
    (∀ c fs ca fs' c' k, noProv c = true → injectFs fuel c fs ca = some (fs', c', k) → c' = c ∧ k = 0) := by
  intro fuel
  induction fuel with
  | zero =>
      refine ⟨fun c t r hnp h => ?_, fun c t r hnp h => ?_,
        fun c v ca w c' k hnp h => ?_, fun c fs ca fs' c' k hnp h => ?_⟩ <;>
        simp [build, buildFallback, injectV, injectFs] at h
  | succ fuel ih =>
      obtain ⟨ihB, ihF, ihV, ihFs⟩ := ih
      refine ⟨fun c t r hnp h => ?_, fun c t r hnp h => ?_,
        fun c v ca w c' k hnp h => ?_, fun c fs ca fs' c' k hnp h => ?_⟩
      · -- build
        simp only [build] at h
        split at h
        · -- alias binding
          next t' heq => exact ihB c t' r hnp h
        · -- provider binding: contradicts noProv
          next rv ra sh heq =>
            exact (noProvB_lookup (noProv_values hnp) heq).elim
        · -- instance binding
          next v0 ca0 heq =>
            cases h
            exact ⟨rfl, rfl⟩
        · -- no binding: parent or fallback
          next heq =>
            split at h
            · next p hp =>
                split at h
                · exact absurd h (by simp)
                · next rp hb =>
                    cases h
                    obtain ⟨hc, hn⟩ := ihB p t rp (noProv_parent hnp hp) hb
                    rw [hc]
                    exact ⟨withParent_self hp, hn⟩
            · next hp => exact ihF c t r hnp h
      · -- buildFallback
        simp only [buildFallback] at h
        split at h
        · -- pointer-version branch
          split at h
          · exact absurd h (by simp)
          · next rp hb =>
              cases h
              exact ihB c _ rp hnp hb
        · -- structural defaults
          split at h
          · -- struct
            split at h
            · exact absurd h (by simp)
            · next w c2 k2 hi =>
                cases h
                exact ihV c _ true w _ _ hnp hi
          · -- slice
            cases h; exact ⟨rfl, rfl⟩
          · -- map
            cases h; exact ⟨rfl, rfl⟩
          · -- chan
            cases h; exact ⟨rfl, rfl⟩
          · -- ptr
            split at h
            · exact absurd h (by simp)
            · next rp hb =>
                obtain ⟨hc, hn⟩ := ihB c _ rp hnp hb
                split at h
                · cases h; exact ⟨hc, hn⟩
                · cases h; exact ⟨hc, hn⟩
          · -- default (scalar / iface)
            cases h; exact ⟨rfl, rfl⟩
      · -- injectV
        cases v with
        | ptrV e tgt =>
            simp only [injectV] at h
            split at h
            · exact absurd h (by simp)
            · next w0 c2 k2 hi =>
                cases h
                exact ihV c tgt true w0 _ _ hnp hi
        | struV nm ms fs =>
            simp only [injectV] at h
            split at h
            · exact absurd h (by simp)
            · next fs2 c2 k2 hi =>
                cases h
                exact ihFs c fs ca fs2 _ _ hnp hi
        | invalid => cases h; exact ⟨rfl, rfl⟩
        | scalarV nm n => cases h; exact ⟨rfl, rfl⟩
        | ptrNil e => cases h; exact ⟨rfl, rfl⟩
        | sliceV e b => cases h; exact ⟨rfl, rfl⟩
        | mapV ke e b => cases h; exact ⟨rfl, rfl⟩
        | chanV e b => cases h; exact ⟨rfl, rfl⟩
        | ifaceNil nm ms => cases h; exact ⟨rfl, rfl⟩
      · -- injectFs
        cases fs with
        | nil => cases h; exact ⟨rfl, rfl⟩
        | cons n tag s ty v rest =>
            simp only [injectFs] at h
            split at h
            · -- injectable field
              split at h
              · exact absurd h (by simp)
              · next rb hb =>
                  split at h
                  · exact absurd h (by simp)
                  · next rest2 c2 k2 hi =>
                      cases h
                      obtain ⟨hc1, hn1⟩ := ihB c ty rb hnp hb
                      rw [hc1] at hi
                      obtain ⟨hc3, hn3⟩ := ihFs c rest ca rest2 _ _ hnp hi
                      exact ⟨hc3, by rw [hn1, hn3]⟩
            · -- skipped field
              split at h
              · exact absurd h (by simp)
              · next rest2 c2 k2 hi =>
                  cases h
                  exact ihFs c rest ca rest2 _ _ hnp hi

/- ------------------------------------------------------------------ -/
/- One-step equations for build/buildFallback/injectV/injectFs.        -/
/- ------------------------------------------------------------------ -/

lemma build_alias {c : Ctr} {t t' : Ty} {fuel : Nat}
    (hb : lookupB c.values t = some (.aliasB t')) :
    build (fuel+1) c t = build fuel c t' := by
  simp only [build, hb]

lemma build_provB {c : Ctr} {t : Ty} {rv : Value} {ra sh : Bool} {fuel : Nat}
    (hb : lookupB c.values t = some (.prov rv ra sh)) :
    build (fuel+1) c t =
      if sh then some ⟨rv, ra, c.withValues (insertB c.values t (.inst rv ra)), 1⟩
      else some ⟨rv, ra, c, 1⟩ := by
  simp only [build, hb]

lemma build_inst {c : Ctr} {t : Ty} {v : Value} {ca : Bool} {fuel : Nat}
    (hb : lookupB c.values t = some (.inst v ca)) :
    build (fuel+1) c t = some ⟨v, ca, c, 0⟩ := by
  simp only [build, hb]

lemma build_parent {c p : Ctr} {t : Ty} {fuel : Nat}
    (h1 : lookupB c.values t = none) (h2 : c.parent = some p) :
    build (fuel+1) c t =
      match build fuel p t with
      | none => none
      | some r => some ⟨r.v, r.ca, c.withParent (some r.c), r.n⟩ := by
  simp only [build, h1, h2]

lemma build_noparent {c : Ctr} {t : Ty} {fuel : Nat}
    (h1 : lookupB c.values t = none) (h2 : c.parent = none) :
    build (fuel+1) c t = buildFallback fuel c t := by
  simp only [build, h1, h2]

lemma fallback_ptrHit {c : Ctr} {t : Ty} {fuel : Nat}
    (hps : (lookupB c.values (.ptr t)).isSome = true) :
    buildFallback (fuel+1) c t =
      match build fuel c (.ptr t) with
      | none => none
      | some r => some ⟨(elemOf (r.v, r.ca)).1, (elemOf (r.v, r.ca)).2, r.c, r.n⟩ := by
  simp only [buildFallback, hps, if_true]

lemma fallback_stru {c : Ctr} {nm : String} {ms : List String} {fs : Fields} {fuel : Nat}
    (hps : (lookupB c.values (.ptr (.stru nm ms fs))).isSome = false) :
    buildFallback (fuel+1) c (.stru nm ms fs) =
      match injectV fuel c (zeroValue (.stru nm ms fs)) true with
      | none => none
      | some (v, c', k) => some ⟨v, true, c', k⟩ := by
  simp only [buildFallback, hps, Bool.false_eq_true, if_false]

lemma fallback_slice {c : Ctr} {e : Ty} {fuel : Nat}
    (hps : (lookupB c.values (.ptr (.slice e))).isSome = false) :
    buildFallback (fuel+1) c (.slice e) = some ⟨.sliceV e false, false, c, 0⟩ := by
  simp only [buildFallback, hps, Bool.false_eq_true, if_false]

lemma fallback_mapT {c : Ctr} {ke e : Ty} {fuel : Nat}
    (hps : (lookupB c.values (.ptr (.mapT ke e))).isSome = false) :
    buildFallback (fuel+1) c (.mapT ke e) = some ⟨.mapV ke e false, false, c, 0⟩ := by
  simp only [buildFallback, hps, Bool.false_eq_true, if_false]

lemma fallback_chan {c : Ctr} {e : Ty} {fuel : Nat}
    (hps : (lookupB c.values (.ptr (.chan e))).isSome = false) :
    buildFallback (fuel+1) c (.chan e) = some ⟨.chanV e false, false, c, 0⟩ := by
  simp only [buildFallback, hps, Bool.false_eq_true, if_false]

lemma fallback_ptr {c : Ctr} {e : Ty} {fuel : Nat}
    (hps : (lookupB c.values (.ptr (.ptr e))).isSome = false) :
    buildFallback (fuel+1) c (.ptr e) =
      match build fuel c e with
      | none => none
      | some r =>
          if r.ca then some ⟨.ptrV e r.v, false, r.c, r.n⟩
          else some ⟨zeroValue (.ptr e), true, r.c, r.n⟩ := by
  simp only [buildFallback, hps, Bool.false_eq_true, if_false]

lemma fallback_scalar {c : Ctr} {nm : String} {fuel : Nat}
    (hps : (lookupB c.values (.ptr (.scalar nm))).isSome = false) :
    buildFallback (fuel+1) c (.scalar nm) = some ⟨.scalarV nm 0, true, c, 0⟩ := by
  simp only [buildFallback, hps, Bool.false_eq_true, if_false]
  rfl

lemma fallback_iface {c : Ctr} {nm : String} {ms : List String} {fuel : Nat}
    (hps : (lookupB c.values (.ptr (.iface nm ms))).isSome = false) :
    buildFallback (fuel+1) c (.iface nm ms) = some ⟨.ifaceNil nm ms, true, c, 0⟩ := by
  simp only [buildFallback, hps, Bool.false_eq_true, if_false]
  rfl

lemma injectV_ptrV {c : Ctr} {e : Ty} {tgt : Value} {ca : Bool} {fuel : Nat} :
    injectV (fuel+1) c (.ptrV e tgt) ca =
      match injectV fuel c tgt true with
      | none => none
      | some (tgt', c', k) => some (.ptrV e tgt', c', k) := rfl

lemma injectV_struV {c : Ctr} {nm : String} {ms : List String} {fs : FieldVs}
    {ca : Bool} {fuel : Nat} :
    injectV (fuel+1) c (.struV nm ms fs) ca =
      match injectFs fuel c fs ca with
      | none => none
      | some (fs', c', k) => some (.struV nm ms fs', c', k) := rfl

lemma injectFs_nil {c : Ctr} {ca : Bool} {fuel : Nat} :
    injectFs (fuel+1) c .nil ca = some (.nil, c, 0) := rfl

lemma injectFs_cons {c : Ctr} {n tag : String} {s : Bool} {ty : Ty} {v : Value}
    {rest : FieldVs} {ca : Bool} {fuel : Nat} :
    injectFs (fuel+1) c (.cons n tag s ty v rest) ca =
      if ca && s && !(tag == "") then
        match build fuel c ty with
        | none => none
        | some r =>
          match injectFs fuel r.c rest ca with
          | none => none
          | some (rest', c', k) => some (.cons n tag s ty r.v rest', c', r.n + k)
      else
        match injectFs fuel c rest ca with
        | none => none
        | some (rest', c', k) => some (.cons n tag s ty v rest', c', k) := rfl

/- ------------------------------------------------------------------ -/
/- Fuel monotonicity: a result obtained with some fuel persists.       -/
/- ------------------------------------------------------------------ -/

lemma mono_step : ∀ fuel : Nat,
    (∀ c t r, build fuel c t = some r → build (fuel+1) c t = some r) ∧
    (∀ c t r, buildFallback fuel c t = some r → buildFallback (fuel+1) c t = some r) ∧
    (∀ c v ca res, injectV fuel c v ca = some res → injectV (fuel+1) c v ca = some res) ∧
    (∀ c fs ca res, injectFs fuel c fs ca = some res → injectFs (fuel+1) c fs ca = some res) := by
  intro fuel
  induction fuel with
  | zero =>
      refine ⟨fun c t r h => ?_, fun c t r h => ?_,
        fun c v ca res h => ?_, fun c fs ca res h => ?_⟩ <;>
        simp [build, buildFallback, injectV, injectFs] at h
  | succ fuel ih =>
      obtain ⟨ihB, ihF, ihV, ihFs⟩ := ih
      refine ⟨fun c t r h => ?_, fun c t r h => ?_,
        fun c v ca res h => ?_, fun c fs ca res h => ?_⟩
      · -- build
        cases heq : lookupB c.values t with
        | some b =>
            cases b with
            | aliasB t' =>
                rw [build_alias heq] at h ⊢
                exact ihB c t' r h
            | prov rv ra sh =>
                rw [build_provB heq] at h ⊢
                exact h
            | inst v0 ca0 =>
                rw [build_inst heq] at h ⊢
                exact h
        | none =>
            cases hp : c.parent with
            | some p =>
                rw [build_parent heq hp] at h ⊢
                split at h
                · exact absurd h (by simp)
                · next rp hb =>
                    simp only [ihB p t rp hb]
                    exact h
            | none =>
                rw [build_noparent heq hp] at h ⊢
                exact ihF c t r h
      · -- buildFallback
        cases hps : (lookupB c.values (.ptr t)).isSome with
        | true =>
            rw [fallback_ptrHit hps] at h ⊢
            split at h
            · exact absurd h (by simp)
            · next rp hb =>
                simp only [ihB c _ rp hb]
                exact h
        | false =>
            cases t with
            | stru nm ms fs =>
                rw [fallback_stru hps] at h ⊢
                split at h
                · exact absurd h (by simp)
                · next w c2 k2 hi =>
                    simp only [ihV c _ true _ hi]
                    exact h
            | slice e =>
                rw [fallback_slice hps] at h ⊢
                exact h
            | mapT ke e =>
                rw [fallback_mapT hps] at h ⊢
                exact h
            | chan e =>
                rw [fallback_chan hps] at h ⊢
                exact h
            | ptr e =>
                rw [fallback_ptr hps] at h ⊢
                split at h
                · exact absurd h (by simp)
                · next rp hb =>
                    simp only [ihB c e rp hb]
                    exact h
            | scalar nm =>
                rw [fallback_scalar hps] at h ⊢
                exact h
            | iface nm ms =>
                rw [fallback_iface hps] at h ⊢
                exact h
      · -- injectV
        cases v with
        | ptrV e tgt =>
            rw [injectV_ptrV] at h ⊢
            split at h
            · exact absurd h (by simp)
            · next w0 c2 k2 hi =>
                simp only [ihV c tgt true _ hi]
                exact h
        | struV nm ms fs =>
            rw [injectV_struV] at h ⊢
            split at h
            · exact absurd h (by simp)
            · next fs2 c2 k2 hi =>
                simp only [ihFs c fs ca _ hi]
                exact h
        | invalid => exact h
        | scalarV nm n => exact h
        | ptrNil e => exact h
        | sliceV e b => exact h
        | mapV ke e b => exact h
        | chanV e b => exact h
        | ifaceNil nm ms => exact h
      · -- injectFs
        cases fs with
        | nil => exact h
        | cons n tag s ty v rest =>
            rw [injectFs_cons] at h ⊢
            by_cases hcond : (ca && s && !(tag == "")) = true
            · rw [if_pos hcond] at h ⊢
              split at h
              · exact absurd h (by simp)
              · next rb hb =>
                  simp only [ihB c ty rb hb]
                  split at h
                  · exact absurd h (by simp)
                  · next rest2 c2 k2 hi =>
                      simp only [ihFs rb.c rest ca _ hi]
                      exact h
            · rw [if_neg hcond] at h ⊢
              split at h
              · exact absurd h (by simp)
              · next rest2 c2 k2 hi =>
                  simp only [ihFs c rest ca _ hi]
                  exact h

lemma build_mono {fuel fuel' : Nat} (hle : fuel ≤ fuel') {c : Ctr} {t : Ty}
    {r : BRes} (h : build fuel c t = some r) : build fuel' c t = some r := by
  induction fuel' with
  | zero =>
      have : fuel = 0 := Nat.le_zero.mp hle
      subst this
      exact h
  | succ n ihn =>
      rcases Nat.lt_or_ge fuel (n+1) with hlt | hge
      · exact (mono_step n).1 c t r (ihn (Nat.lt_succ_iff.mp hlt))
      · have : fuel = n + 1 := Nat.le_antisymm hle hge
        subst this
        exact h

lemma injectFs_mono {fuel fuel' : Nat} (hle : fuel ≤ fuel') {c : Ctr}
    {fs : FieldVs} {ca : Bool} {res : FieldVs × Ctr × Nat}
    (h : injectFs fuel c fs ca = some res) : injectFs fuel' c fs ca = some res := by
  induction fuel' with
  | zero =>
      have : fuel = 0 := Nat.le_zero.mp hle
      subst this
      exact h
  | succ n ihn =>
      rcases Nat.lt_or_ge fuel (n+1) with hlt | hge
      · exact (mono_step n).2.2.2 c fs ca res (ihn (Nat.lt_succ_iff.mp hlt))
      · have : fuel = n + 1 := Nat.le_antisymm hle hge
        subst this
        exact h

/- ------------------------------------------------------------------ -/
/- C8: field-injection selectivity.                                    -/
/- ------------------------------------------------------------------ -/

/-- Spec-side reading of field injection (container.go lines 263-269 /
spec section 4.3): every field that is settable and carries a non-empty
`inject` tag is set to the resolution of its own type against the one
registry state `c`; every other field keeps its prior value. -/
def injectFieldsSpec (fuel : Nat) (c : Ctr) (ca : Bool) : FieldVs → Option FieldVs
  | .nil => some .nil
  | .cons n tag s ty v rest =>
      match injectFieldsSpec fuel c ca rest with
      | none => none
      | some rest' =>
          if ca && s && !(tag == "") then
            match build fuel c ty with
            | none => none
            | some r => some (.cons n tag s ty r.v rest')
          else some (.cons n tag s ty v rest')

lemma injectFieldsSpec_mono {fuel : Nat} {c : Ctr} {ca : Bool} :
    ∀ (fs : FieldVs) (fs' : FieldVs), injectFieldsSpec fuel c ca fs = some fs' →
      injectFieldsSpec (fuel+1) c ca fs = some fs'
  | .nil, fs', h => by simpa [injectFieldsSpec] using h
  | .cons n tag s ty v rest, fs', h => by
      simp only [injectFieldsSpec] at h ⊢
      split at h
      · exact absurd h (by simp)
      · next rest' hr =>
          simp only [injectFieldsSpec_mono rest rest' hr]
          by_cases hcond : (ca && s && !(tag == "")) = true
          · rw [if_pos hcond] at h ⊢
            split at h
            · exact absurd h (by simp)
            · next rb hb =>
                simp only [(mono_step fuel).1 c ty rb hb]
                exact h
          · rw [if_neg hcond] at h ⊢
            exact h

/-- On a provider-free chain, the implementation's left-to-right
injection loop computes exactly the spec-side field map. -/
lemma injectFs_spec : ∀ fuel : Nat, ∀ {c : Ctr} {fs : FieldVs} {ca : Bool}
    {fs' : FieldVs} {c' : Ctr} {k : Nat}, noProv c = true →
    injectFs fuel c fs ca = some (fs', c', k) →
    injectFieldsSpec fuel c ca fs = some fs' := by
  intro fuel
  induction fuel with
  | zero =>
      intro c fs ca fs' c' k hnp h
      simp [injectFs] at h
  | succ fuel ih =>
      intro c fs ca fs' c' k hnp h
      cases fs with
      | nil =>
          rw [injectFs_nil] at h
          cases h
          rfl
      | cons n tag s ty v rest =>
          rw [injectFs_cons] at h
          by_cases hcond : (ca && s && !(tag == "")) = true
          · rw [if_pos hcond] at h
            split at h
            · exact absurd h (by simp)
            · next rb hb =>
                split at h
                · exact absurd h (by simp)
                · next rest2 c2 k2 hi =>
                    cases h
                    obtain ⟨hc1, _⟩ := (noProv_frame fuel).1 c ty rb hnp hb
                    rw [hc1] at hi
                    have hrest := injectFieldsSpec_mono _ _ (ih hnp hi)
                    have hb' := (mono_step fuel).1 c ty rb hb
                    simp [injectFieldsSpec, hrest, hcond, hb']
          · rw [if_neg hcond] at h
            split at h
            · exact absurd h (by simp)
            · next rest2 c2 k2 hi =>
                cases h
                have hrest := injectFieldsSpec_mono _ _ (ih hnp hi)
                simp [injectFieldsSpec, hrest, hcond]

/-- C8: field-injection selectivity. (i) Injecting through a pointer
injects the pointed-to value, which becomes addressable — this covers
any number of pointer dereferences, one per step; (ii) injecting a
non-struct, non-pointer value (including a nil pointer, whose
dereference has invalid kind) is a no-op; (iii) on a provider-free
chain, injecting a struct leaves the container untouched and sets
exactly the fields that are settable (exported) and carry a non-empty
`inject` tag — embedded/anonymous fields are ordinary fields here — to
the resolution of their type, while every other field keeps its prior
value (`injectFieldsSpec`). -/
theorem inject_field_selectivity (fuel : Nat) (c : Ctr) (ca : Bool) :
    (∀ e v, injectV (fuel+1) c (.ptrV e v) ca =
      match injectV fuel c v true with
      | none => none
      | some (v', c', k) => some (.ptrV e v', c', k)) ∧
    (∀ v, (∀ e w, v ≠ .ptrV e w) → (∀ n ms fs, v ≠ .struV n ms fs) →
      injectV (fuel+1) c v ca = some (v, c, 0)) ∧
    (noProv c = true →
      ∀ nm ms fs w c' k, injectV (fuel+1) c (.struV nm ms fs) ca = some (w, c', k) →
        c' = c ∧ k = 0 ∧
        ∃ fs', w = .struV nm ms fs' ∧ injectFieldsSpec fuel c ca fs = some fs') := by
  refine ⟨fun e v => injectV_ptrV, fun v hp hs => ?_, fun hnp nm ms fs w c' k h => ?_⟩
  · cases v with
    | ptrV e w => exact absurd rfl (hp e w)
    | struV nm ms fs => exact absurd rfl (hs nm ms fs)
    | invalid => rfl
    | scalarV nm n => rfl
    | ptrNil e => rfl
    | sliceV e b => rfl
    | mapV ke e b => rfl
    | chanV e b => rfl
    | ifaceNil nm ms => rfl
  · rw [injectV_struV] at h
    split at h
    · exact absurd h (by simp)
    · next fs2 c2 k2 hi =>
        cases h
        obtain ⟨hc, hk⟩ := (noProv_frame fuel).2.2.2 c fs ca fs2 c' k hnp hi
        subst hc
        exact ⟨rfl, hk, fs2, rfl, injectFs_spec fuel hnp hi⟩

theorem inject_field_selectivity_witness :
    noProv (register newContainer (.scalarV "int" 42)) = true ∧
    injectV 6 (register newContainer (.scalarV "int" 42))
        (.struV "T" [] (.cons "X" "inject" true (.scalar "int") (.scalarV "int" 0)
          (.cons "y" "inject" false (.scalar "int") (.scalarV "int" 0)
            (.cons "Z" "" true (.scalar "int") (.scalarV "int" 0) .nil)))) true =
      some (.struV "T" [] (.cons "X" "inject" true (.scalar "int") (.scalarV "int" 42)
          (.cons "y" "inject" false (.scalar "int") (.scalarV "int" 0)
            (.cons "Z" "" true (.scalar "int") (.scalarV "int" 0) .nil))),
        register newContainer (.scalarV "int" 42), 0) ∧
    (register newContainer (.scalarV "int" 42) = register newContainer (.scalarV "int" 42) ∧
      (0 : Nat) = 0 ∧
      ∃ fs', Value.struV "T" [] (.cons "X" "inject" true (.scalar "int") (.scalarV "int" 42)
          (.cons "y" "inject" false (.scalar "int") (.scalarV "int" 0)
            (.cons "Z" "" true (.scalar "int") (.scalarV "int" 0) .nil))) = .struV "T" [] fs' ∧
        injectFieldsSpec 5 (register newContainer (.scalarV "int" 42)) true
          (.cons "X" "inject" true (.scalar "int") (.scalarV "int" 0)
            (.cons "y" "inject" false (.scalar "int") (.scalarV "int" 0)
              (.cons "Z" "" true (.scalar "int") (.scalarV "int" 0) .nil))) = some fs') :=
  ⟨by decide, by decide,
    (inject_field_selectivity 5 (register newContainer (.scalarV "int" 42)) true).2.2
      (by decide) "T" []
      (.cons "X" "inject" true (.scalar "int") (.scalarV "int" 0)
        (.cons "y" "inject" false (.scalar "int") (.scalarV "int" 0)
          (.cons "Z" "" true (.scalar "int") (.scalarV "int" 0) .nil)))
      _ _ _ (by decide)⟩

/- ------------------------------------------------------------------ -/
/- C9: Call resolves parameters positionally and invokes the function. -/
/- ------------------------------------------------------------------ -/

/-- Spec-side reading of `Call`'s argument loop: one resolution per
declared parameter type, positionally, left to right, all against the
registry state `c`. -/
def paramsSpec (fuel : Nat) (c : Ctr) : List Ty → Option (List Value)
  | [] => some []
  | t :: ts =>
      match build fuel c t with
      | none => none
      | some r =>
          match paramsSpec fuel c ts with
          | none => none
          | some vs => some (r.v :: vs)

lemma buildArgs_spec {fuel : Nat} {c : Ctr} (hnp : noProv c = true) :
    ∀ {ps : List Ty} {vs : List Value} {c' : Ctr} {k : Nat},
      buildArgs fuel c ps = some (vs, c', k) →
      paramsSpec fuel c ps = some vs ∧ c' = c ∧ k = 0 := by
  intro ps
  induction ps with
  | nil =>
      intro vs c' k h
      simp only [buildArgs, Option.some.injEq, Prod.mk.injEq] at h
      obtain ⟨h1, h2, h3⟩ := h
      exact ⟨by simp [paramsSpec, h1], h2.symm, h3.symm⟩
  | cons t ts ih =>
      intro vs c' k h
      simp only [buildArgs] at h
      split at h
      · exact absurd h (by simp)
      · next r hb =>
          split at h
          · exact absurd h (by simp)
          · next vs2 c2 k2 ha =>
              cases h
              obtain ⟨hc1, hn1⟩ := (noProv_frame fuel).1 c t r hnp hb
              rw [hc1] at ha
              obtain ⟨hs, hc2, hk2⟩ := ih ha
              refine ⟨by simp [paramsSpec, hb, hs], hc2, by rw [hn1, hk2]⟩

/-- C9: `Call` on a non-function value panics (`InvalidCallableError`);
`Call` on a function resolves one value per declared parameter type in
positional left-to-right order (on a provider-free chain each one is
exactly `resolve` of that parameter type against `c`), invokes the
function on that argument list, and returns its results in order,
leaving the container unchanged. -/
theorem call_injects_parameters (fuel : Nat) (c : Ctr) :
    (∀ v, call fuel c (.notFn v) = some (.error "not a func")) ∧
    (noProv c = true → ∀ ps impl res,
      call fuel c (.fn ps impl) = some res →
      ∃ vs, paramsSpec fuel c ps = some vs ∧ res = .ok (impl vs, c, 0)) := by
  refine ⟨fun v => rfl, fun hnp ps impl res h => ?_⟩
  simp only [call] at h
  split at h
  · exact absurd h (by simp)
  · next vs2 c2 k2 ha =>
      cases h
      obtain ⟨hs, hc, hk⟩ := buildArgs_spec hnp ha
      subst hc; subst hk
      exact ⟨vs2, hs, rfl⟩

theorem call_injects_parameters_witness :
    noProv (register newContainer (.scalarV "int" 42)) = true ∧
    call 5 (register newContainer (.scalarV "int" 42))
        (.fn [.scalar "int"] (fun vs => vs)) =
      some (.ok ([.scalarV "int" 42], register newContainer (.scalarV "int" 42), 0)) ∧
    ∃ vs, paramsSpec 5 (register newContainer (.scalarV "int" 42)) [.scalar "int"] = some vs ∧
      (Except.ok ([Value.scalarV "int" 42], register newContainer (.scalarV "int" 42), 0) :
          Except String (List Value × Ctr × Nat)) =
        .ok ((fun vs => vs) vs, register newContainer (.scalarV "int" 42), 0) :=
  ⟨by decide, by rfl,
    (call_injects_parameters 5 (register newContainer (.scalarV "int" 42))).2
      (by decide) [.scalar "int"] (fun vs => vs)
      (.ok ([.scalarV "int" 42], register newContainer (.scalarV "int" 42), 0))
      (by rfl)⟩

/- ------------------------------------------------------------------ -/
/- C10: resolution never changes the set of bound type keys.           -/
/- ------------------------------------------------------------------ -/

/-- Two container chains have the same shape and, level by level, the
same set of bound type keys. -/
def chainKeysEq : Ctr → Ctr → Prop
  | .root vs, .root vs' => ∀ u, (lookupB vs u).isSome = (lookupB vs' u).isSome
  | .child vs p, .child vs' p' =>
      (∀ u, (lookupB vs u).isSome = (lookupB vs' u).isSome) ∧ chainKeysEq p p'
  | _, _ => False

lemma chainKeysEq_refl : ∀ c : Ctr, chainKeysEq c c
  | .root _ => fun _ => rfl
  | .child _ p => ⟨fun _ => rfl, chainKeysEq_refl p⟩

lemma chainKeysEq_trans : ∀ a b c : Ctr,
    chainKeysEq a b → chainKeysEq b c → chainKeysEq a c
  | .root _, .root _, .root _, h1, h2 => fun u => (h1 u).trans (h2 u)
  | .child _ p, .child _ p', .child _ p'', h1, h2 =>
      ⟨fun u => (h1.1 u).trans (h2.1 u), chainKeysEq_trans p p' p'' h1.2 h2.2⟩
  | .root _, .root _, .child _ _, _, h2 => h2.elim
  | .root _, .child _ _, _, h1, _ => h1.elim
  | .child _ _, .root _, _, h1, _ => h1.elim
  | .child _ _, .child _ _, .root _, _, h2 => h2.elim

lemma chainKeysEq_insert {c : Ctr} {t : Ty} {b : Binding}
    (h : (lookupB c.values t).isSome = true) :
    chainKeysEq c (c.withValues (insertB c.values t b)) := by
  cases c with
  | root vs =>
      exact fun u => (lookup_insert_isSome vs t u b h).symm
  | child vs p =>
      exact ⟨fun u => (lookup_insert_isSome vs t u b h).symm, chainKeysEq_refl p⟩

lemma chainKeysEq_withParent {c p p' : Ctr} (hp : c.parent = some p)
    (hk : chainKeysEq p p') : chainKeysEq c (c.withParent (some p')) := by
  cases c with
  | root vs => simp [Ctr.parent] at hp
  | child vs q =>
      simp only [Ctr.parent, Option.some.injEq] at hp
      subst hp
      exact ⟨fun _ => rfl, hk⟩

lemma chainKeysEq_hasRegistered : ∀ {c c' : Ctr}, chainKeysEq c c' →
    ∀ u, hasRegistered c' u = hasRegistered c u := by
  intro c c' h u
  cases c with
  | root vs =>
      cases c' with
      | root vs' => exact (h u).symm
      | child vs' p' => exact h.elim
  | child vs p =>
      cases c' with
      | root vs' => exact h.elim
      | child vs' p' => exact (h.1 u).symm

/-- Resolution may replace the content of an already-present key (the
shared-provider cache transition) but never adds or removes a key, at
any level of the chain. -/
lemma keys_frame : ∀ fuel : Nat,
    (∀ c t r, build fuel c t = some r → chainKeysEq c r.c) ∧
    (∀ c t r, buildFallback fuel c t = some r → chainKeysEq c r.c) ∧
    (∀ c v ca w c' k, injectV fuel c v ca = some (w, c', k) → chainKeysEq c c') ∧
    (∀ c fs ca fs' c' k, injectFs fuel c fs ca = some (fs', c', k) → chainKeysEq c c') := by
  intro fuel
  induction fuel with
  | zero =>
      refine ⟨fun c t r h => ?_, fun c t r h => ?_,
        fun c v ca w c' k h => ?_, fun c fs ca fs' c' k h => ?_⟩ <;>
        simp [build, buildFallback, injectV, injectFs] at h
  | succ fuel ih =>
      obtain ⟨ihB, ihF, ihV, ihFs⟩ := ih
      refine ⟨fun c t r h => ?_, fun c t r h => ?_,
        fun c v ca w c' k h => ?_, fun c fs ca fs' c' k h => ?_⟩
      · -- build
        cases heq : lookupB c.values t with
        | some b =>
            cases b with
            | aliasB t' =>
                rw [build_alias heq] at h
                exact ihB c t' r h
            | prov rv ra sh =>
                rw [build_provB heq] at h
                cases sh with
                | true =>
                    rw [if_pos rfl] at h
                    cases h
                    exact chainKeysEq_insert (by simp [heq])
                | false =>
                    rw [if_neg (by simp)] at h
                    cases h
                    exact chainKeysEq_refl c
            | inst v0 ca0 =>
                rw [build_inst heq] at h
                cases h
                exact chainKeysEq_refl c
        | none =>
            cases hp : c.parent with
            | some p =>
                rw [build_parent heq hp] at h
                split at h
                · exact absurd h (by simp)
                · next rp hb =>
                    cases h
                    exact chainKeysEq_withParent hp (ihB p t rp hb)
            | none =>
                rw [build_noparent heq hp] at h
                exact ihF c t r h
      · -- buildFallback
        cases hps : (lookupB c.values (.ptr t)).isSome with
        | true =>
            rw [fallback_ptrHit hps] at h
            split at h
            · exact absurd h (by simp)
            · next rp hb =>
                cases h
                exact ihB c _ rp hb
        | false =>
            cases t with
            | stru nm ms fs =>
                rw [fallback_stru hps] at h
                split at h
                · exact absurd h (by simp)
                · next w2 c2 k2 hi =>
                    cases h
                    exact ihV c _ true w2 _ _ hi
            | slice e =>
                rw [fallback_slice hps] at h
                cases h
                exact chainKeysEq_refl c
            | mapT ke e =>
                rw [fallback_mapT hps] at h
                cases h
                exact chainKeysEq_refl c
            | chan e =>
                rw [fallback_chan hps] at h
                cases h
                exact chainKeysEq_refl c
            | ptr e =>
                rw [fallback_ptr hps] at h
                split at h
                · exact absurd h (by simp)
                · next rp hb =>
                    split at h <;> (cases h; exact ihB c e rp hb)
            | scalar nm =>
                rw [fallback_scalar hps] at h
                cases h
                exact chainKeysEq_refl c
            | iface nm ms =>
                rw [fallback_iface hps] at h
                cases h
                exact chainKeysEq_refl c
      · -- injectV
        cases v with
        | ptrV e tgt =>
            rw [injectV_ptrV] at h
            split at h
            · exact absurd h (by simp)
            · next w0 c2 k2 hi =>
                cases h
                exact ihV c tgt true w0 _ _ hi
        | struV nm ms fs =>
            rw [injectV_struV] at h
            split at h
            · exact absurd h (by simp)
            · next fs2 c2 k2 hi =>
                cases h
                exact ihFs c fs ca fs2 _ _ hi
        | invalid => cases h; exact chainKeysEq_refl c
        | scalarV nm n => cases h; exact chainKeysEq_refl c
        | ptrNil e => cases h; exact chainKeysEq_refl c
        | sliceV e b => cases h; exact chainKeysEq_refl c
        | mapV ke e b => cases h; exact chainKeysEq_refl c
        | chanV e b => cases h; exact chainKeysEq_refl c
        | ifaceNil nm ms => cases h; exact chainKeysEq_refl c
      · -- injectFs
        cases fs with
        | nil => cases h; exact chainKeysEq_refl c
        | cons n tag s ty v rest =>
            rw [injectFs_cons] at h
            by_cases hcond : (ca && s && !(tag == "")) = true
            · rw [if_pos hcond] at h
              split at h
              · exact absurd h (by simp)
              · next rb hb =>
                  split at h
                  · exact absurd h (by simp)
                  · next rest2 c2 k2 hi =>
                      cases h
                      exact chainKeysEq_trans c rb.c _ (ihB c ty rb hb)
                        (ihFs rb.c rest ca rest2 _ _ hi)
            · rw [if_neg hcond] at h
              split at h
              · exact absurd h (by simp)
              · next rest2 c2 k2 hi =>
                  cases h
                  exact ihFs c rest ca rest2 _ _ hi

lemma buildArgs_keys {fuel : Nat} : ∀ {ps : List Ty} {c : Ctr} {vs : List Value}
    {c' : Ctr} {k : Nat}, buildArgs fuel c ps = some (vs, c', k) → chainKeysEq c c' := by
  intro ps
  induction ps with
  | nil =>
      intro c vs c' k h
      simp only [buildArgs, Option.some.injEq, Prod.mk.injEq] at h
      rw [← h.2.1]
      exact chainKeysEq_refl c
  | cons t ts ih =>
      intro c vs c' k h
      simp only [buildArgs] at h
      split at h
      · exact absurd h (by simp)
      · next r hb =>
          split at h
          · exact absurd h (by simp)
          · next vs2 c2 k2 ha =>
              cases h
              exact chainKeysEq_trans c r.c _ ((keys_frame fuel).1 c t r hb) (ih ha)

/-- C10: no `Make`, `Inject`, or `Call` changes the set of bound type
keys: at every level of the parent chain the key set is preserved
(`chainKeysEq`) — the one mutation resolution performs, the
shared-provider cache transition, replaces the content stored under an
already-present key — and in particular `HasRegistered` answers the
same for every type before and after. -/
theorem resolution_preserves_bound_keys (fuel : Nat) (c : Ctr) :
    (∀ t v c' k, makeV fuel c t = some (v, c', k) →
      chainKeysEq c c' ∧ ∀ u, hasRegistered c' u = hasRegistered c u) ∧
    (∀ v w c' k, injectTop fuel c v = some (w, c', k) → chainKeysEq c c') ∧
    (∀ ps impl vs c' k, call fuel c (.fn ps impl) = some (.ok (vs, c', k)) →
      chainKeysEq c c') := by
  refine ⟨fun t v c' k h => ?_, fun v w c' k h => ?_, fun ps impl vs c' k h => ?_⟩
  · simp only [makeV] at h
    split at h
    · exact absurd h (by simp)
    · next r hb =>
        split at h
        · exact absurd h (by simp)
        · simp only [Option.some.injEq, Prod.mk.injEq] at h
          obtain ⟨-, hc, -⟩ := h
          subst hc
          have hk := (keys_frame fuel).1 c t r hb
          exact ⟨hk, chainKeysEq_hasRegistered hk⟩
  · exact (keys_frame fuel).2.2.1 c v false w c' k h
  · simp only [call] at h
    split at h
    · exact absurd h (by simp)
    · next vs2 c2 k2 ha =>
        simp only [Option.some.injEq, Except.ok.injEq, Prod.mk.injEq] at h
        obtain ⟨-, hc, -⟩ := h
        subst hc
        exact buildArgs_keys ha

theorem resolution_preserves_bound_keys_witness :
    makeV 3 (registerProvider newContainer (.scalarV "int" 9) false (.scalar "int") true)
        (.scalar "int") =
      some (.scalarV "int" 9,
        Ctr.root [((.scalar "int"), .inst (.scalarV "int" 9) false)], 1) ∧
    (chainKeysEq (registerProvider newContainer (.scalarV "int" 9) false (.scalar "int") true)
        (Ctr.root [((.scalar "int"), .inst (.scalarV "int" 9) false)]) ∧
      ∀ u, hasRegistered (Ctr.root [((.scalar "int"), .inst (.scalarV "int" 9) false)]) u =
        hasRegistered (registerProvider newContainer (.scalarV "int" 9) false (.scalar "int") true) u) :=
  ⟨by decide,
    (resolution_preserves_bound_keys 3
      (registerProvider newContainer (.scalarV "int" 9) false (.scalar "int") true)).1
      (.scalar "int") (.scalarV "int" 9)
      (Ctr.root [((.scalar "int"), .inst (.scalarV "int" 9) false)]) 1 (by decide)⟩

/- ------------------------------------------------------------------ -/
/- C4: totality of resolution.                                         -/
/- ------------------------------------------------------------------ -/

/- Structural size of a type identifier, the measure for the totality
argument (every type identifier in this model is a finite tree, which
is exactly the "no non-terminating self-referential field graph" side
condition of the claim). -/
mutual
def sizeTy : Ty → Nat
  | .scalar _ => 1
  | .stru _ _ fs => sizeFs fs + 1
  | .iface _ _ => 1
  | .ptr e => sizeTy e + 1
  | .slice e => sizeTy e + 1
  | .mapT k e => sizeTy k + sizeTy e + 1
  | .chan e => sizeTy e + 1

def sizeFs : Fields → Nat
  | .nil => 0
  | .cons _ _ _ ty rest => sizeTy ty + sizeFs rest + 1
end

lemma sizeTy_pos (t : Ty) : 1 ≤ sizeTy t := by
  cases t <;> simp [sizeTy]

/-- Length of the parent chain. -/
def depth : Ctr → Nat
  | .root _ => 0
  | .child _ p => depth p + 1

lemma fieldVTys_zeroFields : ∀ fs : Fields, fieldVTys (zeroFields fs) = fs
  | .nil => rfl
  | .cons n tag s ty rest => by
      simp [zeroFields, fieldVTys, fieldVTys_zeroFields rest]

lemma typeOf_zeroValue (t : Ty) : typeOfV (zeroValue t) = t := by
  cases t <;> simp [zeroValue, typeOfV, fieldVTys_zeroFields]

/-- A well-formed value for a binding under key `t`: it has type `t`,
it is a real (non-invalid) `reflect.Value`, it is not a nil pointer
(the amendment the nil-pointer counterexample forces), and if it is a
pointer it points at a real value of the pointee type. -/
def goodValB (t : Ty) (v : Value) : Bool :=
  (typeOfV v == t) &&
    (match v with
     | .invalid => false
     | .ptrNil _ => false
     | .ptrV e tgt => (typeOfV tgt == e) && !(tgt == .invalid)
     | _ => true)

/-- A well-formed binding: an instance or provider binding whose
(produced) value is well formed for the bound key; alias bindings are
excluded (they resolve to a value of the aliased type, not the bound
type, and they are the one source of potential non-termination). -/
def goodBindingB : Ty → Binding → Bool
  | t, .inst v _ => goodValB t v
  | t, .prov rv _ _ => goodValB t rv
  | _, .aliasB _ => false

def goodValuesB : List (Ty × Binding) → Bool
  | [] => true
  | (t, b) :: rest => goodBindingB t b && goodValuesB rest

def goodCtrB : Ctr → Bool
  | .root vs => goodValuesB vs
  | .child vs p => goodValuesB vs && goodCtrB p

lemma goodVal_type {t : Ty} {v : Value} (h : goodValB t v = true) :
    typeOfV v = t ∧ v ≠ .invalid := by
  simp only [goodValB, Bool.and_eq_true, beq_iff_eq] at h
  refine ⟨h.1, fun hv => ?_⟩
  subst hv
  simp at h

lemma goodVal_ptr {x : Ty} {v : Value} (h : goodValB (.ptr x) v = true) :
    ∃ tgt, v = .ptrV x tgt ∧ typeOfV tgt = x ∧ tgt ≠ .invalid := by
  cases v with
  | ptrV e tgt =>
      simp only [goodValB, typeOfV, Bool.and_eq_true, beq_iff_eq, Bool.not_eq_true',
        beq_eq_false_iff_ne] at h
      obtain ⟨he, h2, h3⟩ := h
      cases he
      exact ⟨tgt, rfl, h2, h3⟩
  | invalid => simp [goodValB] at h
  | ptrNil e => simp [goodValB] at h
  | scalarV nm n => simp [goodValB, typeOfV] at h
  | struV nm ms fs => simp [goodValB, typeOfV] at h
  | sliceV e b => simp [goodValB, typeOfV] at h
  | mapV ke e b => simp [goodValB, typeOfV] at h
  | chanV e b => simp [goodValB, typeOfV] at h
  | ifaceNil nm ms => simp [goodValB, typeOfV] at h

lemma goodValues_lookup : ∀ {vs : List (Ty × Binding)} {t : Ty} {b : Binding},
    goodValuesB vs = true → lookupB vs t = some b → goodBindingB t b = true := by
  intro vs
  induction vs with
  | nil => intro t b _ h; simp [lookupB] at h
  | cons hd rest ih =>
      intro t b hg h
      obtain ⟨k, b0⟩ := hd
      simp only [goodValuesB, Bool.and_eq_true] at hg
      by_cases hk : k = t
      · subst hk
        simp [lookupB] at h
        subst h
        exact hg.1
      · simp only [lookupB, if_neg hk] at h
        exact ih hg.2 h

lemma goodValues_insert : ∀ {vs : List (Ty × Binding)} {t : Ty} {b : Binding},
    goodValuesB vs = true → goodBindingB t b = true →
    goodValuesB (insertB vs t b) = true := by
  intro vs
  induction vs with
  | nil => intro t b _ hb; simp [insertB, goodValuesB, hb]
  | cons hd rest ih =>
      intro t b hg hb
      obtain ⟨k, b0⟩ := hd
      simp only [goodValuesB, Bool.and_eq_true] at hg
      by_cases hk : k = t
      · subst hk
        simp [insertB, goodValuesB, hb, hg.2]
      · simp [insertB, if_neg hk, goodValuesB, hg.1, ih hg.2 hb]

lemma goodCtr_values {c : Ctr} (h : goodCtrB c = true) :
    goodValuesB c.values = true := by
  cases c with
  | root vs => simpa [goodCtrB, Ctr.values] using h
  | child vs p =>
      simp only [goodCtrB, Bool.and_eq_true] at h
      simpa [Ctr.values] using h.1

lemma goodCtr_withValues {c : Ctr} {vs : List (Ty × Binding)}
    (hc : goodCtrB c = true) (hvs : goodValuesB vs = true) :
    goodCtrB (c.withValues vs) = true := by
  cases c with
  | root vs0 => simpa [Ctr.withValues, goodCtrB] using hvs
  | child vs0 p =>
      simp only [goodCtrB, Bool.and_eq_true] at hc
      simp [Ctr.withValues, goodCtrB, hvs, hc.2]

lemma depth_withValues (c : Ctr) (vs : List (Ty × Binding)) :
    depth (c.withValues vs) = depth c := by
  cases c <;> rfl

lemma mul_succ_le {a s f : Nat} (hs : 1 ≤ s) (h : (a + 1) * s ≤ f + 1) :
    a * s ≤ f := by
  rw [Nat.succ_mul] at h
  exact Nat.le_of_succ_le_succ (le_trans (Nat.add_le_add_left hs _) h)

/-- Totality of resolution with well-formed, alias-free bindings: with
`(depth c + 4) * sizeTy t` fuel, `build` succeeds, produces a
non-invalid value of exactly the requested type, and keeps the chain
well formed at the same depth; and the field-injection loop likewise
succeeds, preserving the field schema. -/
lemma total_aux : ∀ N : Nat,
    (∀ t : Ty, sizeTy t ≤ N → ∀ c : Ctr, goodCtrB c = true →
      ∀ fuel : Nat, (depth c + 4) * sizeTy t ≤ fuel →
      ∃ r : BRes, build fuel c t = some r ∧ typeOfV r.v = t ∧ r.v ≠ .invalid ∧
        goodCtrB r.c = true ∧ depth r.c = depth c) ∧
    (∀ (fuel : Nat) (fsv : FieldVs), sizeFs (fieldVTys fsv) ≤ N → ∀ c : Ctr,
      goodCtrB c = true → depth c = 0 → ∀ ca : Bool,
      4 * sizeFs (fieldVTys fsv) + 1 ≤ fuel →
      ∃ (fs' : FieldVs) (c' : Ctr) (k : Nat), injectFs fuel c fsv ca = some (fs', c', k) ∧
        fieldVTys fs' = fieldVTys fsv ∧ goodCtrB c' = true ∧ depth c' = 0) := by
  have foundCase : ∀ (t' : Ty) (c : Ctr) (b : Binding) (f : Nat), goodCtrB c = true →
      lookupB c.values t' = some b →
      ∃ r : BRes, build (f+1) c t' = some r ∧ goodValB t' r.v = true ∧
        goodCtrB r.c = true ∧ depth r.c = depth c := by
    intro t' c b f hg hb
    have hgb := goodValues_lookup (goodCtr_values hg) hb
    cases b with
    | aliasB t2 => simp [goodBindingB] at hgb
    | inst v ca =>
        simp only [goodBindingB] at hgb
        exact ⟨⟨v, ca, c, 0⟩, build_inst hb, hgb, hg, rfl⟩
    | prov rv ra sh =>
        simp only [goodBindingB] at hgb
        cases sh with
        | true =>
            refine ⟨⟨rv, ra, c.withValues (insertB c.values t' (.inst rv ra)), 1⟩,
              ?_, hgb, ?_, depth_withValues c _⟩
            · rw [build_provB hb, if_pos rfl]
            · exact goodCtr_withValues hg
                (goodValues_insert (goodCtr_values hg) (by simpa [goodBindingB] using hgb))
        | false =>
            refine ⟨⟨rv, ra, c, 1⟩, ?_, hgb, hg, rfl⟩
            rw [build_provB hb, if_neg (by simp)]
  intro N
  induction N with
  | zero =>
      constructor
      · intro t ht
        have := sizeTy_pos t
        omega
      · intro fuel fsv hsz c hg hd ca hfuel
        cases fsv with
        | nil =>
            obtain ⟨g, rfl⟩ : ∃ g, fuel = g + 1 := ⟨fuel - 1, by omega⟩
            exact ⟨.nil, c, 0, injectFs_nil, rfl, hg, hd⟩
        | cons n tag s ty v rest =>
            simp only [fieldVTys, sizeFs] at hsz
            have := sizeTy_pos ty
            omega
  | succ N ihN =>
      obtain ⟨ihBuildN, ihFsN⟩ := ihN
      have P2 : ∀ (fuel : Nat) (fsv : FieldVs), sizeFs (fieldVTys fsv) ≤ N + 1 →
          ∀ c : Ctr, goodCtrB c = true → depth c = 0 → ∀ ca : Bool,
          4 * sizeFs (fieldVTys fsv) + 1 ≤ fuel →
          ∃ (fs' : FieldVs) (c' : Ctr) (k : Nat),
            injectFs fuel c fsv ca = some (fs', c', k) ∧
            fieldVTys fs' = fieldVTys fsv ∧ goodCtrB c' = true ∧ depth c' = 0 := by
        intro fuel
        induction fuel with
        | zero =>
            intro fsv hsz c hg hd ca hfuel
            exact absurd hfuel (by omega)
        | succ g ihg =>
            intro fsv hsz c hg hd ca hfuel
            cases fsv with
            | nil => exact ⟨.nil, c, 0, injectFs_nil, rfl, hg, hd⟩
            | cons n tag s ty v rest =>
                simp only [fieldVTys, sizeFs] at hsz hfuel
                by_cases hcond : (ca && s && !(tag == "")) = true
                · obtain ⟨r, hb, hty, hninv, hgc', hdep'⟩ :=
                    ihBuildN ty (by omega) c hg g (by rw [hd]; omega)
                  obtain ⟨rest', c', k, hi, hfv, hgc2, hdep2⟩ :=
                    ihg rest (by omega) r.c hgc' (by rw [hdep', hd]) ca (by omega)
                  refine ⟨.cons n tag s ty r.v rest', c', r.n + k, ?_, ?_, hgc2, hdep2⟩
                  · rw [injectFs_cons, if_pos hcond]
                    simp [hb, hi]
                  · simp [fieldVTys, hfv]
                · obtain ⟨rest', c', k, hi, hfv, hgc2, hdep2⟩ :=
                    ihg rest (by omega) c hg hd ca (by omega)
                  refine ⟨.cons n tag s ty v rest', c', k, ?_, ?_, hgc2, hdep2⟩
                  · rw [injectFs_cons, if_neg hcond]
                    simp [hi]
                  · simp [fieldVTys, hfv]
      have P1 : ∀ t : Ty, sizeTy t ≤ N + 1 → ∀ c : Ctr, goodCtrB c = true →
          ∀ fuel : Nat, (depth c + 4) * sizeTy t ≤ fuel →
          ∃ r : BRes, build fuel c t = some r ∧ typeOfV r.v = t ∧ r.v ≠ .invalid ∧
            goodCtrB r.c = true ∧ depth r.c = depth c := by
        intro t ht c
        induction c with
        | child vs p ihp =>
            intro hg fuel hfuel
            have hs1 := sizeTy_pos t
            obtain ⟨f, rfl⟩ : ∃ f, fuel = f + 1 :=
              ⟨fuel - 1, by
                have h4 : 4 ≤ (depth (Ctr.child vs p) + 4) * sizeTy t :=
                  le_trans (by omega) (Nat.mul_le_mul_left _ hs1)
                omega⟩
            cases heq : lookupB (Ctr.child vs p).values t with
            | some b =>
                obtain ⟨r, hbld, hgv, hgc, hdep⟩ :=
                  foundCase t (Ctr.child vs p) b f hg heq
                obtain ⟨hty, hninv⟩ := goodVal_type hgv
                exact ⟨r, hbld, hty, hninv, hgc, hdep⟩
            | none =>
                have hgp : goodCtrB p = true := by
                  simp only [goodCtrB, Bool.and_eq_true] at hg
                  exact hg.2
                have hvs : goodValuesB vs = true := by
                  simp only [goodCtrB, Bool.and_eq_true] at hg
                  exact hg.1
                have hfuel' : ((depth p + 4) + 1) * sizeTy t ≤ f + 1 := by
                  have hco : depth (Ctr.child vs p) + 4 = (depth p + 4) + 1 := by
                    simp only [depth]
                  rw [hco] at hfuel
                  exact hfuel
                obtain ⟨rp, hbld, hty, hninv, hgc, hdep⟩ :=
                  ihp hgp f (mul_succ_le hs1 hfuel')
                refine ⟨⟨rp.v, rp.ca, (Ctr.child vs p).withParent (some rp.c), rp.n⟩,
                  ?_, hty, hninv, ?_, ?_⟩
                · rw [build_parent heq rfl]
                  simp [hbld]
                · simpa [Ctr.withParent, Ctr.values, goodCtrB] using ⟨hvs, hgc⟩
                · simp [Ctr.withParent, Ctr.values, depth, hdep]
        | root vs =>
            intro hg fuel hfuel
            have hs1 := sizeTy_pos t
            have hd0 : depth (Ctr.root vs) = 0 := rfl
            have h4 : 4 ≤ fuel := by
              have : 4 * sizeTy t ≤ fuel := by
                simpa [depth] using hfuel
              have h44 : 4 ≤ 4 * sizeTy t := le_trans (by omega) (Nat.mul_le_mul_left _ hs1)
              omega
            obtain ⟨f, rfl⟩ : ∃ f, fuel = f + 1 := ⟨fuel - 1, by omega⟩
            cases heq : lookupB (Ctr.root vs).values t with
            | some b =>
                obtain ⟨r, hbld, hgv, hgc, hdep⟩ :=
                  foundCase t (Ctr.root vs) b f hg heq
                obtain ⟨hty, hninv⟩ := goodVal_type hgv
                exact ⟨r, hbld, hty, hninv, hgc, hdep⟩
            | none =>
                obtain ⟨f2, rfl⟩ : ∃ f2, f = f2 + 1 := ⟨f - 1, by omega⟩
                cases hps : (lookupB (Ctr.root vs).values (.ptr t)).isSome with
                | true =>
                    obtain ⟨b', hb'⟩ := Option.isSome_iff_exists.mp hps
                    obtain ⟨f3, rfl⟩ : ∃ f3, f2 = f3 + 1 := ⟨f2 - 1, by omega⟩
                    obtain ⟨r, hbld, hgv, hgc, hdep⟩ :=
                      foundCase (.ptr t) (Ctr.root vs) b' f3 hg hb'
                    obtain ⟨tgt, hveq, htty, htinv⟩ := goodVal_ptr hgv
                    refine ⟨⟨tgt, true, r.c, r.n⟩, ?_, htty, htinv, hgc, hdep⟩
                    rw [build_noparent heq rfl, fallback_ptrHit hps]
                    simp [hbld, hveq, elemOf]
                | false =>
                    have hfuel4 : 4 * sizeTy t ≤ f2 + 2 := by
                      simpa [depth] using hfuel
                    cases t with
                    | scalar nm =>
                        refine ⟨⟨.scalarV nm 0, true, .root vs, 0⟩, ?_, rfl, by simp, hg, rfl⟩
                        rw [build_noparent heq rfl, fallback_scalar hps]
                    | iface nm ms =>
                        refine ⟨⟨.ifaceNil nm ms, true, .root vs, 0⟩, ?_, rfl, by simp, hg, rfl⟩
                        rw [build_noparent heq rfl, fallback_iface hps]
                    | slice e =>
                        refine ⟨⟨.sliceV e false, false, .root vs, 0⟩, ?_, rfl, by simp, hg, rfl⟩
                        rw [build_noparent heq rfl, fallback_slice hps]
                    | mapT ke e =>
                        refine ⟨⟨.mapV ke e false, false, .root vs, 0⟩, ?_, rfl, by simp, hg, rfl⟩
                        rw [build_noparent heq rfl, fallback_mapT hps]
                    | chan e =>
                        refine ⟨⟨.chanV e false, false, .root vs, 0⟩, ?_, rfl, by simp, hg, rfl⟩
                        rw [build_noparent heq rfl, fallback_chan hps]
                    | ptr e =>
                        have hse : sizeTy e ≤ N := by
                          simp only [sizeTy] at ht
                          omega
                        have hfe : (depth (Ctr.root vs) + 4) * sizeTy e ≤ f2 := by
                          simp only [sizeTy] at hfuel4
                          simp only [depth]
                          omega
                        obtain ⟨r, hbld, hty, hninv, hgc, hdep⟩ :=
                          ihBuildN e hse (Ctr.root vs) hg f2 hfe
                        by_cases hca : r.ca = true
                        · refine ⟨⟨.ptrV e r.v, false, r.c, r.n⟩, ?_,
                            by simp [typeOfV], by simp, hgc, hdep⟩
                          rw [build_noparent heq rfl, fallback_ptr hps]
                          simp [hbld, hca]
                        · have hca' : r.ca = false := by
                            revert hca
                            cases r.ca <;> simp
                          refine ⟨⟨zeroValue (.ptr e), true, r.c, r.n⟩, ?_,
                            typeOf_zeroValue _, by simp [zeroValue], hgc, hdep⟩
                          rw [build_noparent heq rfl, fallback_ptr hps]
                          simp [hbld, hca']
                    | stru nm ms fs =>
                        obtain ⟨f3, rfl⟩ : ∃ f3, f2 = f3 + 1 := ⟨f2 - 1, by omega⟩
                        have hszf : sizeFs (fieldVTys (zeroFields fs)) ≤ N + 1 := by
                          rw [fieldVTys_zeroFields]
                          simp only [sizeTy] at ht
                          omega
                        have hff : 4 * sizeFs (fieldVTys (zeroFields fs)) + 1 ≤ f3 := by
                          rw [fieldVTys_zeroFields]
                          simp only [sizeTy] at hfuel4
                          omega
                        obtain ⟨fs', c', k, hi, hfv, hgc', hdep'⟩ :=
                          P2 f3 (zeroFields fs) hszf (Ctr.root vs) hg rfl true hff
                        refine ⟨⟨.struV nm ms fs', true, c', k⟩, ?_, ?_, by simp, hgc', hdep'⟩
                        · rw [build_noparent heq rfl, fallback_stru hps]
                          have hIV : injectV (f3+1) (Ctr.root vs)
                              (zeroValue (.stru nm ms fs)) true =
                              some (.struV nm ms fs', c', k) := by
                            show injectV (f3+1) (Ctr.root vs)
                              (.struV nm ms (zeroFields fs)) true = _
                            rw [injectV_struV]
                            simp [hi]
                          simp [hIV]
                        · rw [fieldVTys_zeroFields] at hfv
                          simp [typeOfV, hfv]
      exact ⟨P1, P2⟩

/-- C4 counterexample. Registering a nil pointer of type `*S` (a
well-formed, acyclic registration) makes the *unregistered* pointee
type `S` hit the pointer-version fallback: `build(*S).Elem()` on a nil
pointer is the invalid `reflect.Value`, which is not a value of type
`S`, and `Make(S)` panics on `Interface()` (modelled: `makeV = none`).
So resolution of a well-formed, acyclic, unregistered type can raise.
Separately, with an alias binding (`RegisterAs(type, iface)`) the
resolved value has the concrete type, not the requested interface type,
contradicting "returns a value of type T" as well. -/
theorem resolve_raises_on_nil_pointer_binding :
    hasRegistered (register newContainer (.ptrNil (.scalar "S"))) (.scalar "S") = false ∧
    (build 9 (register newContainer (.ptrNil (.scalar "S"))) (.scalar "S")).map BRes.v =
      some .invalid ∧
    makeV 9 (register newContainer (.ptrNil (.scalar "S"))) (.scalar "S") = none ∧
    (build 9 (Ctr.root [(.iface "Bar" ["test"], .aliasB (.ptr (.stru "Foo" ["test"] .nil))),
        (.ptr (.stru "Foo" ["test"] .nil), .inst (.ptrV (.stru "Foo" ["test"] .nil)
          (.struV "Foo" ["test"] .nil)) false)])
        (.iface "Bar" ["test"])).map (fun r => typeOfV r.v) =
      some (.ptr (.stru "Foo" ["test"] .nil)) ∧
    Ty.ptr (.stru "Foo" ["test"] .nil) ≠ .iface "Bar" ["test"] :=
  ⟨by decide, by decide, by decide, by decide, by decide⟩

/-- C4 (amended): on a container chain whose bindings are all instance
or provider bindings (no alias bindings) holding well-typed values that
are neither invalid nor nil pointers (`goodCtrB`), resolution of every
type identifier terminates — `(depth c + 4) * sizeTy t` fuel suffices —
and returns a non-invalid value of exactly the requested type, and
`Make` never panics; an unregistered type degrades to a structural
default, spelled out here for the non-recursive kinds on a fresh
container: empty (non-nil) slice/map/channel, zero scalar, nil
interface. -/
theorem resolve_total_good_bindings (t : Ty) (c : Ctr) (hg : goodCtrB c = true) :
    (∃ r : BRes, build ((depth c + 4) * sizeTy t) c t = some r ∧
      makeV ((depth c + 4) * sizeTy t) c t = some (r.v, r.c, r.n) ∧
      typeOfV r.v = t ∧ r.v ≠ .invalid ∧ goodCtrB r.c = true) ∧
    (∀ e, build 3 newContainer (.slice e) = some ⟨.sliceV e false, false, newContainer, 0⟩) ∧
    (∀ ke e, build 3 newContainer (.mapT ke e) = some ⟨.mapV ke e false, false, newContainer, 0⟩) ∧
    (∀ e, build 3 newContainer (.chan e) = some ⟨.chanV e false, false, newContainer, 0⟩) ∧
    (∀ nm, build 3 newContainer (.scalar nm) = some ⟨.scalarV nm 0, true, newContainer, 0⟩) ∧
    (∀ nm ms, build 3 newContainer (.iface nm ms) =
      some ⟨.ifaceNil nm ms, true, newContainer, 0⟩) := by
  refine ⟨?_, fun e => ?_, fun ke e => ?_, fun e => ?_, fun nm => ?_, fun nm ms => ?_⟩
  · obtain ⟨r, hbld, hty, hninv, hgc, -⟩ :=
      (total_aux (sizeTy t)).1 t le_rfl c hg ((depth c + 4) * sizeTy t) le_rfl
    refine ⟨r, hbld, ?_, hty, hninv, hgc⟩
    simp [makeV, hbld, hninv]
  · rw [show (3:Nat) = 1+1+1 from rfl, build_noparent (by rfl) (by rfl), fallback_slice (by rfl)]
  · rw [show (3:Nat) = 1+1+1 from rfl, build_noparent (by rfl) (by rfl), fallback_mapT (by rfl)]
  · rw [show (3:Nat) = 1+1+1 from rfl, build_noparent (by rfl) (by rfl), fallback_chan (by rfl)]
  · rw [show (3:Nat) = 1+1+1 from rfl, build_noparent (by rfl) (by rfl), fallback_scalar (by rfl)]
  · rw [show (3:Nat) = 1+1+1 from rfl, build_noparent (by rfl) (by rfl), fallback_iface (by rfl)]

theorem resolve_total_good_bindings_witness :
    goodCtrB (register newContainer (.scalarV "int" 7)) = true ∧
    (∃ r : BRes,
      build ((depth (register newContainer (.scalarV "int" 7)) + 4) * sizeTy (.scalar "int"))
        (register newContainer (.scalarV "int" 7)) (.scalar "int") = some r ∧
      makeV ((depth (register newContainer (.scalarV "int" 7)) + 4) * sizeTy (.scalar "int"))
        (register newContainer (.scalarV "int" 7)) (.scalar "int") = some (r.v, r.c, r.n) ∧
      typeOfV r.v = .scalar "int" ∧ r.v ≠ .invalid ∧ goodCtrB r.c = true) :=
  ⟨by decide,
    (resolve_total_good_bindings (.scalar "int")
      (register newContainer (.scalarV "int" 7)) (by decide)).1⟩

end OzzoDi
